import Mathlib

/-!
Verification of the YamtalDev/PriorityQueue repository: a comparator-driven
sorted list (src/src/sorted_list.c) and a priority-queue adapter on top of it
(src/src/priority_queue.c).

Modelling conventions.  The underlying doubly linked list engine (dll.c, an
external collaborator that is not part of the sorted-list sources) is embedded
as a Lean `List α`; a position (iterator) is the index of an element in that
list, and a container's end sentinel is the index `length`.  The comparator
`int (*cmp)(void *data, void *new_data)` becomes `cmp : α → α → Int`.
Allocation by the engine is modelled by an explicit `alloc : Bool` flag on
`SortedListInsert`: `true` means `DLLInsertBefore` obtains its node,
`false` means the engine fails to allocate, leaves the list unchanged and
yields the end position.  Every function below is translated line by line
from the C sources; deviations forced by the model (fuel for the C `while`
loops, indices for node pointers) are noted at the definition.
-/

namespace PriorityQueueVerif

/-- Mirrors `struct sorted_list { dll_t *dll; sorted_list_compare_func_t cmp; }`
from sorted_list.c.  The `dll` field is the abstract contents of the engine
instance in traversal order. -/
structure sorted_list (α : Type) where
  dll : List α
  cmp : α → α → Int

/-- `SortedListCount`: delegates to `DLLCount`, the number of elements. -/
def SortedListCount (sl : sorted_list α) : Nat :=
  sl.dll.length

/-- `SortedListIsEmpty`: delegates to `DLLIsEmpty`. -/
def SortedListIsEmpty (sl : sorted_list α) : Bool :=
  sl.dll.isEmpty

/-- `SortedListBegin`: the first position, index 0. -/
def SortedListBegin (_sl : sorted_list α) : Nat :=
  0

/-- `SortedListEnd`: the end sentinel, one past the last element. -/
def SortedListEnd (sl : sorted_list α) : Nat :=
  sl.dll.length

/-- `SortedListIsEqual`: position identity (pointer equality in C, index
equality in the model). -/
def SortedListIsEqual (iter1 iter2 : Nat) : Bool :=
  iter1 = iter2

/-- The scan-and-link loop of `SortedListInsert` (sorted_list.c:193-198):
walk forward from `Begin` while `cmp(current, data) < 0`, then
`DLLInsertBefore` the stop position. -/
def SortedListInsertLoop (cmp : α → α → Int) (data : α) : List α → List α
  | [] => [data]
  | x :: xs =>
    if cmp x data < 0 then x :: SortedListInsertLoop cmp data xs
    else data :: x :: xs

/-- Index at which `SortedListInsertLoop` links the new element: the length
of the scanned-over prefix. -/
def SortedListInsertPos (cmp : α → α → Int) (data : α) : List α → Nat
  | [] => 0
  | x :: xs =>
    if cmp x data < 0 then SortedListInsertPos cmp data xs + 1
    else 0

/-- `SortedListInsert` (sorted_list.c:185-204).  On allocation success the
new element is linked before the first position whose payload is not
strictly worse than `data`, and that position is returned; on failure
(`alloc = false`) the engine leaves the list unchanged and the end position
is returned, per the documented contract of `DLLInsertBefore`. -/
def SortedListInsert (alloc : Bool) (sl : sorted_list α) (data : α) :
    sorted_list α × Nat :=
  if alloc then
    (⟨SortedListInsertLoop sl.cmp data sl.dll, sl.cmp⟩,
      SortedListInsertPos sl.cmp data sl.dll)
  else
    (sl, sl.dll.length)

/-- `SortedListRemove` (sorted_list.c:214-219): `DLLRemove` detaches the node
at the given position.  In the index model this is `eraseIdx`; removing the
end sentinel is a contract violation in C (asserted), on which `eraseIdx`
leaves the list unchanged. -/
def SortedListRemove (sl : sorted_list α) (iterator : Nat) : sorted_list α :=
  ⟨sl.dll.eraseIdx iterator, sl.cmp⟩

/-- Modelled from the spec: dll.c is not under src/.  `DLLPopFront` removes
and returns the payload at the first position; on an empty container the
spec (§4.2, §8) fixes the defined no-value return.  `SortedListPopFront`
(sorted_list.c:239-243) delegates to it. -/
def SortedListPopFront (sl : sorted_list α) : Option α × sorted_list α :=
  match sl.dll with
  | [] => (none, sl)
  | x :: xs => (some x, ⟨xs, sl.cmp⟩)

/-- Modelled from the spec: dll.c is not under src/.  `DLLPopBack` removes and
returns the payload at the last position, the mirror image of `DLLPopFront`.
`SortedListPopBack` (sorted_list.c:227-231) delegates to it. -/
def SortedListPopBack (sl : sorted_list α) : Option α × sorted_list α :=
  (sl.dll.getLast?, ⟨sl.dll.dropLast, sl.cmp⟩)

/-- `SortedListGetData` (sorted_list.c:251-255): payload at a position.
Dereferencing the end sentinel is a contract violation in C; the model
returns `none` there. -/
def SortedListGetData (sl : sorted_list α) (iterator : Nat) : Option α :=
  sl.dll.get? iterator

/-- One outer iteration bundle of `SortedListMerge` (sorted_list.c:279-300),
recursing on explicit fuel because the C `while` loop's termination is a
consequence of comparator consistency, not of its syntax.  State: `done` is
the dest prefix `runner` has passed, `rest` the dest suffix from `runner`
on, `s` the remaining source.  At the start of every outer iteration the C
cursors satisfy `to = from = Begin(source)`, so both are represented by `s`
itself.  Inner loop one advances `runner` while `cmp(runner, from) <= 0`;
if `runner` hits `End(dest)` the whole of `source` is spliced at the back,
otherwise inner loop two advances `to` while `cmp(to, runner) < 0` and the
run `[from, to)` is spliced before `runner`. -/
def SortedListMergeLoop (cmp : α → α → Int) :
    Nat → List α → List α → List α → List α × List α
  | 0, done, rest, s => (done ++ rest, s)
  | _ + 1, done, rest, [] => (done ++ rest, [])
  | fuel + 1, done, rest, f :: s0 =>
    let r1 := rest.takeWhile fun x => decide (cmp x f ≤ 0)
    let rest' := rest.dropWhile fun x => decide (cmp x f ≤ 0)
    match rest' with
    | [] => (done ++ r1 ++ f :: s0, [])
    | y :: rest'' =>
      let run := (f :: s0).takeWhile fun x => decide (cmp x y < 0)
      let s' := (f :: s0).dropWhile fun x => decide (cmp x y < 0)
      SortedListMergeLoop cmp fuel (done ++ r1 ++ run) (y :: rest'') s'

/-- `SortedListMerge` (sorted_list.c:266-301).  Both lists share `dest`'s
comparator (the C code compares exclusively through `dest->cmp`).  Fuel
`source.dll.length` suffices: every outer iteration under a consistent
comparator splices at least one source element out. -/
def SortedListMerge (dest source : sorted_list α) :
    sorted_list α × sorted_list α :=
  let r := SortedListMergeLoop dest.cmp source.dll.length [] dest.dll source.dll
  (⟨r.1, dest.cmp⟩, ⟨r.2, source.cmp⟩)

/-- Step-counted body of the `SortedListFind` scan: `fuel` is the number of
positions left before `to`, so `fuel = 0` is exactly the C guard
`target == to` failing on a valid range. -/
def SortedListFindGo (cmp : α → α → Int) (l : List α) (parameter : α) :
    Nat → Nat → Nat
  | 0, target => target
  | fuel + 1, target =>
    match l.get? target with
    | some x =>
      if 0 < cmp x parameter then
        SortedListFindGo cmp l parameter fuel (target + 1)
      else target
    | none => target

/-- The scan loop of `SortedListFind` (sorted_list.c:326-328): advance
`target` from `from` while it has not reached `to` and
`cmp(current, parameter) > 0`.  A `target` outside the list (possible only
for invalid ranges, undefined behaviour in C) stops the scan. -/
def SortedListFindLoop (cmp : α → α → Int) (l : List α) (parameter : α)
    (toPos : Nat) (target : Nat) : Nat :=
  SortedListFindGo cmp l parameter (toPos - target) target

/-- Step-counted body of the `SortedListFindIf` scan, built like
`SortedListFindGo`. -/
def SortedListFindIfGo (ismatch : α → β → Bool) (parameter : β)
    (l : List α) : Nat → Nat → Nat
  | 0, runner => runner
  | fuel + 1, runner =>
    match l.get? runner with
    | some x =>
      if ismatch x parameter then runner
      else SortedListFindIfGo ismatch parameter l fuel (runner + 1)
    | none => runner

/-- The scan loop of `SortedListFindIf` (sorted_list.c:355-363): return the
first position in `[from, to)` whose payload matches, else `to`. -/
def SortedListFindIfLoop (ismatch : α → β → Bool) (parameter : β)
    (l : List α) (toPos : Nat) (runner : Nat) : Nat :=
  SortedListFindIfGo ismatch parameter l (toPos - runner) runner

theorem SortedListFindLoop_stop (cmp : α → α → Int) (l : List α)
    (parameter : α) (toPos target : Nat) (h : ¬ target < toPos) :
    SortedListFindLoop cmp l parameter toPos target = target := by
  unfold SortedListFindLoop
  have h0 : toPos - target = 0 := by omega
  rw [h0]
  rfl

theorem SortedListFindLoop_step (cmp : α → α → Int) (l : List α)
    (parameter : α) (toPos target : Nat) (h : target < toPos) :
    SortedListFindLoop cmp l parameter toPos target
      = match l.get? target with
        | some x =>
          if 0 < cmp x parameter then
            SortedListFindLoop cmp l parameter toPos (target + 1)
          else target
        | none => target := by
  unfold SortedListFindLoop
  have h1 : toPos - target = (toPos - (target + 1)) + 1 := by omega
  rw [h1]
  rfl

theorem SortedListFindIfLoop_stop (ismatch : α → β → Bool) (parameter : β)
    (l : List α) (toPos runner : Nat) (h : ¬ runner < toPos) :
    SortedListFindIfLoop ismatch parameter l toPos runner = runner := by
  unfold SortedListFindIfLoop
  have h0 : toPos - runner = 0 := by omega
  rw [h0]
  rfl

theorem SortedListFindIfLoop_step (ismatch : α → β → Bool) (parameter : β)
    (l : List α) (toPos runner : Nat) (h : runner < toPos) :
    SortedListFindIfLoop ismatch parameter l toPos runner
      = match l.get? runner with
        | some x =>
          if ismatch x parameter then runner
          else SortedListFindIfLoop ismatch parameter l toPos (runner + 1)
        | none => runner := by
  unfold SortedListFindIfLoop
  have h1 : toPos - runner = (toPos - (runner + 1)) + 1 := by omega
  rw [h1]
  rfl

/-- Mirrors `struct sorted_list_node { dll_iter_t iterator; sorted_list_t *list; }`
(sorted_list.h), the iterator carried around in a debug (`NDEBUG` undefined)
build: the engine position plus a back-reference to the owning list,
modelled as an opaque container identity. -/
structure sorted_list_iter where
  iterator : Nat
  list : Nat

/-- Outcome of a call in a debug build: either the ordinary return value or
an `assert` firing (process abort). -/
inductive DebugResult (β : Type) where
  | ok (val : β)
  | assertFailed
deriving DecidableEq

/-- `SortedListFind` (sorted_list.c:314-331) in a debug build: the
`#ifndef NDEBUG` block asserts `from.list == to.list` before scanning.
The owning list's contents are passed explicitly since the model's
positions are plain indices. -/
def SortedListFindDebug (list : sorted_list α) (f t : sorted_list_iter)
    (parameter : α) : DebugResult Nat :=
  if f.list ≠ t.list then .assertFailed
  else .ok (SortedListFindLoop list.cmp list.dll parameter t.iterator f.iterator)

/-- `SortedListFindIf` (sorted_list.c:344-364) in a debug build: asserts
`from.list == to.list` before the scan. -/
def SortedListFindIfDebug (l : List α) (f t : sorted_list_iter)
    (ismatch : α → β → Bool) (parameter : β) : DebugResult Nat :=
  if f.list ≠ t.list then .assertFailed
  else .ok (SortedListFindIfLoop ismatch parameter l t.iterator f.iterator)

/-- Modelled from the spec: dll.c is not under src/.  `DLLForEach` (§4.1
ForEach) invokes the action on every payload of the range in traversal
order, aborts on the first non-zero status and returns it, else returns 0. -/
def DLLForEach (action : α → Int) : List α → Int
  | [] => 0
  | x :: xs => if action x ≠ 0 then action x else DLLForEach action xs

/-- `SortedListForEach` (sorted_list.c:381-394) in a debug build: the
`#ifndef NDEBUG` block *returns -1* on a cross-container range instead of
asserting, then delegates to `DLLForEach` over `[from, to)`. -/
def SortedListForEachDebug (l : List α) (f t : sorted_list_iter)
    (action : α → Int) : DebugResult Int :=
  if f.list ≠ t.list then .ok (-1)
  else .ok (DLLForEach action ((l.drop f.iterator).take (t.iterator - f.iterator)))

/-- Mirrors `struct priority_queue { sorted_list_t *sorted_list; }`
from priority_queue.c. -/
structure priority_queue (α : Type) where
  sorted_list : sorted_list α

/-- `PriorityQueueEnqueue` (priority_queue.c:78-84): insert, then return
`SortedListIsEqual(End(list), inserted)` as the C `int` status (1 when the
insert came back as the end position, 0 otherwise). -/
def PriorityQueueEnqueue (alloc : Bool) (queue : priority_queue α) (data : α) :
    priority_queue α × Int :=
  let r := SortedListInsert alloc queue.sorted_list data
  (⟨r.1⟩, if SortedListIsEqual (SortedListEnd r.1) r.2 then 1 else 0)

/-- `PriorityQueueDequeue` (priority_queue.c:95-99): pop front. -/
def PriorityQueueDequeue (queue : priority_queue α) :
    Option α × priority_queue α :=
  let r := SortedListPopFront queue.sorted_list
  (r.1, ⟨r.2⟩)

/-- `PriorityQueuePeek` (priority_queue.c:111-115): payload at `Begin`.
On an empty queue `Begin = End` and the C code dereferences the sentinel
(contract violation); the model returns `none` there. -/
def PriorityQueuePeek (queue : priority_queue α) : Option α :=
  SortedListGetData queue.sorted_list (SortedListBegin queue.sorted_list)

/-- `PriorityQueueIsEmpty` (priority_queue.c:125-129). -/
def PriorityQueueIsEmpty (queue : priority_queue α) : Bool :=
  SortedListIsEmpty queue.sorted_list

/-- `PriorityQueueSize` (priority_queue.c:139-143). -/
def PriorityQueueSize (queue : priority_queue α) : Nat :=
  SortedListCount queue.sorted_list

/-- The C `void *` returned by `PriorityQueueErase`: either the removed
payload or the queue handle itself, the documented not-found sentinel. -/
inductive EraseResult (α : Type) where
  | payload (data : α)
  | queueHandle
deriving DecidableEq

/-- `PriorityQueueErase` (priority_queue.c:159-175): `FindIf` over
`[Begin, End)`; if the result equals `End` return the queue handle and leave
the queue untouched, else fetch the payload, `Remove` the position and
return the payload.  The find result never exceeds `End`, so the success
branch's bound check is exactly the C inequality with `End`. -/
def PriorityQueueErase (queue : priority_queue α)
    (ismatch : α → β → Bool) (parameter : β) :
    EraseResult α × priority_queue α :=
  let l := queue.sorted_list.dll
  let result := SortedListFindIfLoop ismatch parameter l l.length 0
  if h : result < l.length then
    (.payload (l.get ⟨result, h⟩), ⟨SortedListRemove queue.sorted_list result⟩)
  else
    (.queueHandle, queue)

/-- The pop-until-empty loop of `PriorityQueueClear` (priority_queue.c:187). -/
def PriorityQueueClearLoop : List α → List α
  | [] => []
  | _ :: xs => PriorityQueueClearLoop xs

/-- `PriorityQueueClear` (priority_queue.c:184-189): pop front until empty. -/
def PriorityQueueClear (queue : priority_queue α) : priority_queue α :=
  ⟨⟨PriorityQueueClearLoop queue.sorted_list.dll, queue.sorted_list.cmp⟩⟩

/-- A mutating call of the sorted-list API, for stating the sort invariant
over arbitrary call sequences.  `insert` carries the engine's allocation
outcome; `merge` merges another list (sharing the container's comparator,
the precondition of `SortedListMerge`) into this one. -/
inductive Op (α : Type) where
  | insert (alloc : Bool) (data : α)
  | remove (iterator : Nat)
  | popFront
  | popBack
  | merge (src : List α)

/-- Effect of one `Op` on the container's contents. -/
def applyOp (cmp : α → α → Int) (l : List α) : Op α → List α
  | .insert alloc data => (SortedListInsert alloc ⟨l, cmp⟩ data).1.dll
  | .remove iterator => (SortedListRemove ⟨l, cmp⟩ iterator).dll
  | .popFront => (SortedListPopFront ⟨l, cmp⟩).2.dll
  | .popBack => (SortedListPopBack ⟨l, cmp⟩).2.dll
  | .merge src => (SortedListMerge ⟨l, cmp⟩ ⟨src, cmp⟩).1.dll

/-- Effect of a call sequence, first operation first. -/
def applyOps (cmp : α → α → Int) (ops : List (Op α)) (l : List α) : List α :=
  ops.foldl (applyOp cmp) l

/-- A comparator that induces a total preorder, the implicit validity
requirement on every caller-supplied comparison function (§3: it "must be
consistent across all calls"): the sign flips when the arguments swap, and
the at-or-after relation `cmp a b ≤ 0` is transitive. -/
def Consistent (cmp : α → α → Int) : Prop :=
  (∀ a b, 0 ≤ cmp a b ↔ cmp b a ≤ 0) ∧
  (∀ a b c, cmp a b ≤ 0 → cmp b c ≤ 0 → cmp a c ≤ 0)

/-- The ascending numeric comparator of the spec's concrete scenario:
`cmp(data, new) > 0` iff `new` is smaller and goes in front. -/
def cmpInt : Int → Int → Int :=
  fun data new_data => data - new_data

/-- The "equals parameter" predicate of the spec's erase scenario. -/
def eqInt : Int → Int → Bool :=
  fun data parameter => data == parameter

/-- The container invariant maintained by the engine: every element is
at-or-before every later element, `cmp(earlier, later) ≤ 0`. -/
def Sorted (cmp : α → α → Int) (l : List α) : Prop :=
  l.Pairwise fun a b => cmp a b ≤ 0

instance (cmp : α → α → Int) (l : List α) : Decidable (Sorted cmp l) := by
  unfold Sorted; infer_instance

theorem cmpInt_consistent : Consistent cmpInt := by
  constructor
  · intro a b; unfold cmpInt; omega
  · intro a b c; unfold cmpInt; omega

theorem Consistent.flip {cmp : α → α → Int} (hc : Consistent cmp) {a b : α}
    (h : 0 ≤ cmp a b) : cmp b a ≤ 0 :=
  (hc.1 a b).mp h

theorem Consistent.pos_flip {cmp : α → α → Int} (hc : Consistent cmp) {a b : α}
    (h : cmp a b < 0) : 0 < cmp b a := by
  by_contra h'
  exact absurd ((hc.1 a b).mpr (by omega)) (by omega)

theorem Consistent.lt_of_lt_of_le {cmp : α → α → Int} (hc : Consistent cmp)
    {a b c : α} (h1 : cmp a b < 0) (h2 : cmp b c ≤ 0) : cmp a c < 0 := by
  by_contra h'
  have hca : cmp c a ≤ 0 := hc.flip (by omega)
  have : cmp b a ≤ 0 := hc.2 b c a h2 hca
  exact absurd ((hc.1 a b).mpr this) (by omega)

theorem Consistent.lt_of_le_of_lt {cmp : α → α → Int} (hc : Consistent cmp)
    {a b c : α} (h1 : cmp a b ≤ 0) (h2 : cmp b c < 0) : cmp a c < 0 := by
  by_contra h'
  have hca : cmp c a ≤ 0 := hc.flip (by omega)
  have : cmp c b ≤ 0 := hc.2 c a b hca h1
  exact absurd ((hc.1 b c).mpr this) (by omega)

theorem SortedListInsertLoop_perm (cmp : α → α → Int) (data : α) :
    ∀ l : List α, (SortedListInsertLoop cmp data l).Perm (data :: l) := by
  intro l
  induction l with
  | nil => simp [SortedListInsertLoop]
  | cons x xs ih =>
    by_cases h : cmp x data < 0
    · simp only [SortedListInsertLoop, if_pos h]
      exact (ih.cons x).trans (List.Perm.swap data x xs)
    · simp [SortedListInsertLoop, if_neg h]

theorem mem_SortedListInsertLoop {cmp : α → α → Int} {data z : α} {l : List α}
    (h : z ∈ SortedListInsertLoop cmp data l) : z = data ∨ z ∈ l := by
  have := (SortedListInsertLoop_perm cmp data l).mem_iff.mp h
  simpa using this

/-- The scan of `SortedListInsert` splits the list at the first element not
strictly worse than the new payload and links the payload there. -/
theorem SortedListInsertLoop_eq_takeWhile (cmp : α → α → Int) (data : α) :
    ∀ l : List α,
      SortedListInsertLoop cmp data l
        = (l.takeWhile fun x => decide (cmp x data < 0)) ++
            data :: (l.dropWhile fun x => decide (cmp x data < 0)) := by
  intro l
  induction l with
  | nil => simp [SortedListInsertLoop]
  | cons x xs ih =>
    by_cases h : cmp x data < 0
    · simp [SortedListInsertLoop, List.takeWhile_cons, List.dropWhile_cons, h, ih]
    · simp [SortedListInsertLoop, List.takeWhile_cons, List.dropWhile_cons, h]

theorem SortedListInsertPos_eq_takeWhile (cmp : α → α → Int) (data : α) :
    ∀ l : List α,
      SortedListInsertPos cmp data l
        = (l.takeWhile fun x => decide (cmp x data < 0)).length := by
  intro l
  induction l with
  | nil => simp [SortedListInsertPos]
  | cons x xs ih =>
    by_cases h : cmp x data < 0
    · simp [SortedListInsertPos, List.takeWhile_cons, h, ih]
    · simp [SortedListInsertPos, List.takeWhile_cons, h]

theorem SortedListInsertLoop_length (cmp : α → α → Int) (data : α)
    (l : List α) : (SortedListInsertLoop cmp data l).length = l.length + 1 :=
  (SortedListInsertLoop_perm cmp data l).length_eq.trans (by simp)

theorem SortedListInsertPos_le (cmp : α → α → Int) (data : α) (l : List α) :
    SortedListInsertPos cmp data l ≤ l.length := by
  rw [SortedListInsertPos_eq_takeWhile]
  exact (List.takeWhile_sublist _).length_le

theorem SortedListInsertLoop_get_pos (cmp : α → α → Int) (data : α)
    (l : List α) :
    (SortedListInsertLoop cmp data l).get? (SortedListInsertPos cmp data l)
      = some data := by
  induction l with
  | nil => simp [SortedListInsertLoop, SortedListInsertPos]
  | cons x xs ih =>
    by_cases h : cmp x data < 0
    · simpa [SortedListInsertLoop, SortedListInsertPos, h] using ih
    · simp [SortedListInsertLoop, SortedListInsertPos, h]

/-- Insert preserves the sort invariant for a consistent comparator. -/
theorem Sorted.insertLoop {cmp : α → α → Int} (hc : Consistent cmp) {data : α} :
    ∀ {l : List α}, Sorted cmp l →
      Sorted cmp (SortedListInsertLoop cmp data l) := by
  intro l
  induction l with
  | nil => intro _; simp [SortedListInsertLoop, Sorted]
  | cons x xs ih =>
    intro h
    rw [Sorted, List.pairwise_cons] at h
    obtain ⟨hx, hxs⟩ := h
    by_cases hcmp : cmp x data < 0
    · rw [SortedListInsertLoop, if_pos hcmp, Sorted, List.pairwise_cons]
      refine ⟨?_, ih hxs⟩
      intro z hz
      rcases mem_SortedListInsertLoop hz with rfl | hz'
      · omega
      · exact hx z hz'
    · rw [SortedListInsertLoop, if_neg hcmp, Sorted, List.pairwise_cons]
      have hdx : cmp data x ≤ 0 := hc.flip (by omega)
      refine ⟨?_, ?_⟩
      · intro z hz
        rcases List.mem_cons.mp hz with rfl | hz'
        · exact hdx
        · exact hc.2 data x z hdx (hx z hz')
      · rw [List.pairwise_cons]; exact ⟨hx, hxs⟩

theorem mem_takeWhile_le {cmp : α → α → Int} {f x : α} {l : List α}
    (h : x ∈ l.takeWhile fun z => decide (cmp z f ≤ 0)) : cmp x f ≤ 0 := by
  have := List.mem_takeWhile_imp h
  simpa using this

theorem mem_takeWhile_lt {cmp : α → α → Int} {y x : α} {l : List α}
    (h : x ∈ l.takeWhile fun z => decide (cmp z y < 0)) : cmp x y < 0 := by
  have := List.mem_takeWhile_imp h
  simpa using this

theorem dropWhile_head_false {p : α → Bool} {l t : List α} {y : α}
    (h : l.dropWhile p = y :: t) : p y = false := by
  have hne : l.dropWhile p ≠ [] := by simp [h]
  have := List.head_dropWhile_not p l hne
  simpa [h] using this

/-- Correctness of the merge loop: starting from any state whose invariants
hold (`done ++ rest` sorted, `s` sorted, everything already passed in `done`
at-or-before everything still in `s`) and enough fuel, the loop drains the
source, keeps exactly the elements of both lists and leaves them sorted. -/
theorem SortedListMergeLoop_spec {cmp : α → α → Int} (hc : Consistent cmp) :
    ∀ (fuel : Nat) (done rest s : List α),
      s.length ≤ fuel →
      Sorted cmp (done ++ rest) →
      Sorted cmp s →
      (∀ x ∈ done, ∀ z ∈ s, cmp x z ≤ 0) →
      (SortedListMergeLoop cmp fuel done rest s).2 = [] ∧
      ((SortedListMergeLoop cmp fuel done rest s).1 : Multiset α)
        = ((done ++ rest ++ s : List α) : Multiset α) ∧
      Sorted cmp (SortedListMergeLoop cmp fuel done rest s).1 := by
  intro fuel
  induction fuel with
  | zero =>
    intro done rest s hlen hdr hs _hcross
    have hs0 : s = [] := List.eq_nil_of_length_eq_zero (by omega)
    subst hs0
    exact ⟨rfl, by simp [SortedListMergeLoop],
      by simpa [SortedListMergeLoop] using hdr⟩
  | succ fuel ih =>
    intro done rest s hlen hdr hs hcross
    rcases s with _ | ⟨f, s0⟩
    · exact ⟨rfl, by simp [SortedListMergeLoop],
        by simpa [SortedListMergeLoop] using hdr⟩
    rcases hdw : rest.dropWhile (fun x => decide (cmp x f ≤ 0)) with _ | ⟨y, rest''⟩
    · -- runner reaches End(dest): the whole source is spliced at the back
      have htw : rest.takeWhile (fun x => decide (cmp x f ≤ 0)) = rest := by
        have h0 := List.takeWhile_append_dropWhile
          (fun x => decide (cmp x f ≤ 0)) rest
        rw [hdw, List.append_nil] at h0
        exact h0
      have heq : SortedListMergeLoop cmp (fuel + 1) done rest (f :: s0)
          = (done ++ rest.takeWhile (fun x => decide (cmp x f ≤ 0)) ++ f :: s0,
              []) := by
        simp only [SortedListMergeLoop, hdw]
      rw [heq, htw]
      refine ⟨rfl, by simp, ?_⟩
      have hfz : ∀ z ∈ s0, cmp f z ≤ 0 := (List.pairwise_cons.mp hs).1
      rw [Sorted, List.pairwise_append]
      refine ⟨hdr, hs, ?_⟩
      intro x hx z hz
      rcases List.mem_append.mp hx with hx | hx
      · exact hcross x hx z hz
      · have hxf : cmp x f ≤ 0 := mem_takeWhile_le (htw ▸ hx)
        rcases List.mem_cons.mp hz with rfl | hz'
        · exact hxf
        · exact hc.2 x f z hxf (hfz z hz')
    · -- runner stops at y: splice the source run that belongs before y
      have hpy := dropWhile_head_false hdw
      have hyf : ¬ cmp y f ≤ 0 := by simpa using hpy
      have hfy : cmp f y < 0 := by
        by_contra h'
        exact hyf (hc.flip (by omega))
      have hrest : rest.takeWhile (fun x => decide (cmp x f ≤ 0)) ++ y :: rest''
          = rest := by
        have h0 := List.takeWhile_append_dropWhile
          (fun x => decide (cmp x f ≤ 0)) rest
        rw [hdw] at h0
        exact h0
      have heq : SortedListMergeLoop cmp (fuel + 1) done rest (f :: s0)
          = SortedListMergeLoop cmp fuel
              (done ++ rest.takeWhile (fun x => decide (cmp x f ≤ 0)) ++
                (f :: s0).takeWhile (fun x => decide (cmp x y < 0)))
              (y :: rest'')
              ((f :: s0).dropWhile (fun x => decide (cmp x y < 0))) := by
        simp only [SortedListMergeLoop, hdw]
      set T := rest.takeWhile (fun x => decide (cmp x f ≤ 0)) with hT
      set run := (f :: s0).takeWhile (fun x => decide (cmp x y < 0)) with hrun
      set s' := (f :: s0).dropWhile (fun x => decide (cmp x y < 0)) with hsdef
      have hsrun : run ++ s' = f :: s0 :=
        List.takeWhile_append_dropWhile (fun x => decide (cmp x y < 0)) (f :: s0)
      have hstail : s' = s0.dropWhile (fun x => decide (cmp x y < 0)) := by
        rw [hsdef]
        simp [List.dropWhile_cons, hfy]
      have hslen : s'.length ≤ fuel := by
        have hdwlen : (s0.dropWhile (fun x => decide (cmp x y < 0))).length
            ≤ s0.length := (List.dropWhile_sublist _).length_le
        simp only [List.length_cons] at hlen
        rw [hstail]
        omega
      -- pieces of the old invariants
      have hdr' : Sorted cmp ((done ++ T) ++ (y :: rest'')) := by
        rw [List.append_assoc, hrest]
        exact hdr
      rw [Sorted, List.pairwise_append] at hdr'
      obtain ⟨hDT, hYR, crossDTY⟩ := hdr'
      have hs2 := hs
      rw [show f :: s0 = run ++ s' from hsrun.symm, Sorted,
        List.pairwise_append] at hs2
      obtain ⟨hrunS, hsS, crossRunS⟩ := hs2
      have hfz : ∀ z ∈ s0, cmp f z ≤ 0 := (List.pairwise_cons.mp hs).1
      have hmemT : ∀ x ∈ T, cmp x f ≤ 0 := fun x hx => mem_takeWhile_le hx
      have hmemRun : ∀ w ∈ run, cmp w y < 0 := fun w hw => mem_takeWhile_lt hw
      have hrunSub : ∀ w ∈ run, w ∈ f :: s0 :=
        fun w hw => (List.takeWhile_sublist _).subset hw
      have hsSub : ∀ z ∈ s', z ∈ s0 := by
        intro z hz
        rw [hstail] at hz
        exact (List.dropWhile_sublist _).subset hz
      have hyz : ∀ z ∈ rest'', cmp y z ≤ 0 := (List.pairwise_cons.mp hYR).1
      -- the three invariants of the recursive call
      have inv1 : Sorted cmp ((done ++ T ++ run) ++ (y :: rest'')) := by
        rw [Sorted, List.pairwise_append]
        refine ⟨?_, hYR, ?_⟩
        · rw [List.pairwise_append]
          refine ⟨hDT, hrunS, ?_⟩
          intro x hx w hw
          rcases List.mem_append.mp hx with hx | hx
          · exact hcross x hx w (hrunSub w hw)
          · rcases List.mem_cons.mp (hrunSub w hw) with rfl | hw'
            · exact hmemT x hx
            · exact hc.2 x f w (hmemT x hx) (hfz w hw')
        · intro x hx z hz
          rcases List.mem_append.mp hx with hx | hx
          · exact crossDTY x hx z hz
          · have hxy : cmp x y < 0 := hmemRun x hx
            rcases List.mem_cons.mp hz with rfl | hz'
            · omega
            · exact hc.2 x y z (by omega) (hyz z hz')
      have inv3 : ∀ x ∈ done ++ T ++ run, ∀ z ∈ s', cmp x z ≤ 0 := by
        intro x hx z hz
        rcases List.mem_append.mp hx with hx | hx
        · rcases List.mem_append.mp hx with hx | hx
          · exact hcross x hx z (List.mem_cons_of_mem f (hsSub z hz))
          · exact hc.2 x f z (hmemT x hx) (hfz z (hsSub z hz))
        · exact crossRunS x hx z hz
      obtain ⟨ih1, ih2, ih3⟩ :=
        ih (done ++ T ++ run) (y :: rest'') s' hslen inv1 hsS inv3
      rw [heq]
      refine ⟨ih1, ?_, ih3⟩
      rw [ih2]
      rw [show (rest : List α) = T ++ y :: rest'' from hrest.symm,
        show (f :: s0 : List α) = run ++ s' from hsrun.symm]
      simp only [← Multiset.coe_add, ← List.append_assoc]
      abel

/-- Behaviour of the `SortedListFindIf` scan on a valid range: the result
stays within `[start, toPos]`, everything strictly before it fails the
predicate, and if it is below `toPos` it points at a matching payload. -/
theorem SortedListFindIfLoop_spec (ismatch : α → β → Bool) (parameter : β)
    (l : List α) (toPos : Nat) :
    ∀ (fuel start : Nat), toPos - start ≤ fuel → toPos ≤ l.length →
      start ≤ toPos →
      start ≤ SortedListFindIfLoop ismatch parameter l toPos start ∧
      SortedListFindIfLoop ismatch parameter l toPos start ≤ toPos ∧
      (∀ j, start ≤ j →
        j < SortedListFindIfLoop ismatch parameter l toPos start →
        ∀ x, l.get? j = some x → ismatch x parameter = false) ∧
      (SortedListFindIfLoop ismatch parameter l toPos start < toPos →
        ∃ x, l.get? (SortedListFindIfLoop ismatch parameter l toPos start)
          = some x ∧ ismatch x parameter = true) := by
  intro fuel
  induction fuel with
  | zero =>
    intro start h1 _h2 h3
    rw [SortedListFindIfLoop_stop ismatch parameter l toPos start (by omega)]
    exact ⟨le_refl _, by omega, fun j hj1 hj2 => by omega, fun h => by omega⟩
  | succ fuel ih =>
    intro start h1 h2 h3
    by_cases hlt : start < toPos
    · have hgx : ∃ x, l.get? start = some x := by
        have : start < l.length := by omega
        exact ⟨l.get ⟨start, this⟩, List.get?_eq_get this⟩
      obtain ⟨x, hx⟩ := hgx
      by_cases hm : ismatch x parameter = true
      · have hres : SortedListFindIfLoop ismatch parameter l toPos start
            = start := by
          rw [SortedListFindIfLoop_step ismatch parameter l toPos start hlt,
            hx]
          simp [hm]
        rw [hres]
        exact ⟨le_refl _, by omega, fun j hj1 hj2 => by omega,
          fun _ => ⟨x, hx, hm⟩⟩
      · have hres : SortedListFindIfLoop ismatch parameter l toPos start
            = SortedListFindIfLoop ismatch parameter l toPos (start + 1) := by
          rw [SortedListFindIfLoop_step ismatch parameter l toPos start hlt,
            hx]
          simp [hm]
        obtain ⟨ih1, ih2, ih3, ih4⟩ :=
          ih (start + 1) (by omega) h2 (by omega)
        rw [hres]
        refine ⟨by omega, ih2, ?_, ih4⟩
        intro j hj1 hj2 z hz
        rcases Nat.eq_or_lt_of_le hj1 with rfl | hj'
        · rw [hx] at hz
          cases hz
          simpa using hm
        · exact ih3 j (by omega) hj2 z hz
    · rw [SortedListFindIfLoop_stop ismatch parameter l toPos start
        (by omega)]
      exact ⟨le_refl _, by omega, fun j hj1 hj2 => by omega, fun h => by omega⟩

/-- Behaviour of the `SortedListFind` scan on a valid range: the result is
the first position of `[start, toPos)` whose payload is not strictly better
than the key, or `toPos` when every one is. -/
theorem SortedListFindLoop_spec (cmp : α → α → Int) (l : List α)
    (parameter : α) (toPos : Nat) :
    ∀ (fuel start : Nat), toPos - start ≤ fuel → toPos ≤ l.length →
      start ≤ toPos →
      start ≤ SortedListFindLoop cmp l parameter toPos start ∧
      SortedListFindLoop cmp l parameter toPos start ≤ toPos ∧
      (∀ j, start ≤ j → j < SortedListFindLoop cmp l parameter toPos start →
        ∀ x, l.get? j = some x → 0 < cmp x parameter) ∧
      (SortedListFindLoop cmp l parameter toPos start < toPos →
        ∃ x, l.get? (SortedListFindLoop cmp l parameter toPos start) = some x ∧
          cmp x parameter ≤ 0) := by
  intro fuel
  induction fuel with
  | zero =>
    intro start h1 _h2 h3
    rw [SortedListFindLoop_stop cmp l parameter toPos start (by omega)]
    exact ⟨le_refl _, by omega, fun j hj1 hj2 => by omega, fun h => by omega⟩
  | succ fuel ih =>
    intro start h1 h2 h3
    by_cases hlt : start < toPos
    · have hgx : ∃ x, l.get? start = some x := by
        have : start < l.length := by omega
        exact ⟨l.get ⟨start, this⟩, List.get?_eq_get this⟩
      obtain ⟨x, hx⟩ := hgx
      by_cases hm : 0 < cmp x parameter
      · have hres : SortedListFindLoop cmp l parameter toPos start
            = SortedListFindLoop cmp l parameter toPos (start + 1) := by
          rw [SortedListFindLoop_step cmp l parameter toPos start hlt, hx]
          simp [hm]
        obtain ⟨ih1, ih2, ih3, ih4⟩ :=
          ih (start + 1) (by omega) h2 (by omega)
        rw [hres]
        refine ⟨by omega, ih2, ?_, ih4⟩
        intro j hj1 hj2 z hz
        rcases Nat.eq_or_lt_of_le hj1 with rfl | hj'
        · rw [hx] at hz
          cases hz
          exact hm
        · exact ih3 j (by omega) hj2 z hz
      · have hres : SortedListFindLoop cmp l parameter toPos start = start := by
          rw [SortedListFindLoop_step cmp l parameter toPos start hlt, hx]
          simp [hm]
        rw [hres]
        exact ⟨le_refl _, by omega, fun j hj1 hj2 => by omega,
          fun _ => ⟨x, hx, by omega⟩⟩
    · rw [SortedListFindLoop_stop cmp l parameter toPos start (by omega)]
      exact ⟨le_refl _, by omega, fun j hj1 hj2 => by omega, fun h => by omega⟩

/-- The full-range `FindIf` scan used by `PriorityQueueErase`: bounds, the
first-match property, and the found-iff-some-match equivalence. -/
theorem SortedListFindIf_full (ismatch : α → β → Bool) (parameter : β)
    (l : List α) :
    SortedListFindIfLoop ismatch parameter l l.length 0 ≤ l.length ∧
    (∀ j x, j < SortedListFindIfLoop ismatch parameter l l.length 0 →
      l.get? j = some x → ismatch x parameter = false) ∧
    (SortedListFindIfLoop ismatch parameter l l.length 0 < l.length →
      ∃ x, l.get? (SortedListFindIfLoop ismatch parameter l l.length 0)
        = some x ∧ ismatch x parameter = true) ∧
    (SortedListFindIfLoop ismatch parameter l l.length 0 < l.length ↔
      ∃ x ∈ l, ismatch x parameter = true) := by
  obtain ⟨h1, h2, h3, h4⟩ := SortedListFindIfLoop_spec ismatch parameter l
    l.length l.length 0 (by omega) (le_refl _) (by omega)
  refine ⟨h2, fun j x hj hx => h3 j (by omega) hj x hx, h4, ?_, ?_⟩
  · intro hlt
    obtain ⟨x, hx, hm⟩ := h4 hlt
    exact ⟨x, List.get?_mem hx, hm⟩
  · intro ⟨x, hxl, hm⟩
    by_contra hge
    have hr : SortedListFindIfLoop ismatch parameter l l.length 0
        = l.length := by omega
    obtain ⟨n, hn⟩ := List.get?_of_mem hxl
    have hlt : n < l.length := by
      by_contra hge2
      rw [List.get?_eq_none.mpr (by omega)] at hn
      cases hn
    exact absurd (h3 n (by omega) (by omega) x hn) (by simp [hm])

/-- Insert preserves the invariant; every other mutation in `Op` is a
sublist or a fuelled merge, so the invariant survives each call. -/
theorem applyOp_sorted {cmp : α → α → Int} (hc : Consistent cmp) (l : List α)
    (op : Op α) (h : Sorted cmp l)
    (hop : ∀ src, op = .merge src → Sorted cmp src) :
    Sorted cmp (applyOp cmp l op) := by
  cases op with
  | insert alloc data =>
    cases alloc
    · simpa [applyOp, SortedListInsert] using h
    · simpa [applyOp, SortedListInsert] using Sorted.insertLoop hc h
  | remove iterator =>
    simp only [applyOp, SortedListRemove]
    exact List.Pairwise.sublist (List.eraseIdx_sublist l iterator) h
  | popFront =>
    cases l with
    | nil => simpa [applyOp, SortedListPopFront] using h
    | cons x xs =>
      simp only [applyOp, SortedListPopFront]
      exact List.Pairwise.sublist (List.sublist_cons_self x xs) h
  | popBack =>
    simp only [applyOp, SortedListPopBack]
    exact List.Pairwise.sublist (List.dropLast_sublist l) h
  | merge src =>
    simp only [applyOp, SortedListMerge]
    exact (SortedListMergeLoop_spec hc src.length [] l src (le_refl _)
      (by simpa using h) (hop src rfl) (by simp)).2.2

theorem applyOps_sorted {cmp : α → α → Int} (hc : Consistent cmp) :
    ∀ (ops : List (Op α)) (l : List α), Sorted cmp l →
      (∀ src, Op.merge src ∈ ops → Sorted cmp src) →
      Sorted cmp (applyOps cmp ops l) := by
  intro ops
  induction ops with
  | nil => intro l h _; simpa [applyOps] using h
  | cons op ops ih =>
    intro l h hops
    have h1 : Sorted cmp (applyOp cmp l op) :=
      applyOp_sorted hc l op h fun src hsrc =>
        hops src (hsrc ▸ List.mem_cons_self op ops)
    have h2 : applyOps cmp (op :: ops) l = applyOps cmp ops (applyOp cmp l op) := rfl
    rw [h2]
    exact ih (applyOp cmp l op) h1 fun src hsrc =>
      hops src (List.mem_cons_of_mem op hsrc)

theorem takeWhile_middle_of {p : α → Bool} (T : List α) (y : α) (D : List α)
    (hT : ∀ x ∈ T, p x = true) (hy : p y = false) :
    (T ++ y :: D).takeWhile p = T ∧ (T ++ y :: D).dropWhile p = y :: D := by
  induction T with
  | nil => simp [List.takeWhile_cons, List.dropWhile_cons, hy]
  | cons a T ih =>
    have ha : p a = true := hT a (by simp)
    have ih' := ih fun x hx => hT x (by simp [hx])
    simp [List.takeWhile_cons, List.dropWhile_cons, ha, ih'.1, ih'.2]

/-- C1 counterexample: the claim reads `compare(A, B) ≥ 0` for `A`
immediately before `B`.  With the ascending comparator, inserting 1 then 2
gives the (correctly sorted) traversal `[1, 2]`, whose adjacent pair has
`compare(1, 2) = -1 < 0`: the claim's comparison is the wrong way round. -/
theorem C1_sort_invariant_counterexample :
    applyOps cmpInt [Op.insert true 1, Op.insert true 2] [] = [1, 2] ∧
    cmpInt 1 2 < 0 := by
  constructor
  · decide
  · decide

/-- C1 (amended): after any sequence of Insert/Remove/PopFront/PopBack/Merge
applied with a consistent comparator to a sorted list (merge sources sorted),
the contents stay sorted, and for every adjacent pair `A` immediately before
`B` the comparison `compare(B, A)` — equivalently `-compare(A, B)` — is
non-negative. -/
theorem C1_sort_invariant (cmp : α → α → Int) (hc : Consistent cmp)
    (ops : List (Op α)) (l0 : List α) (h0 : Sorted cmp l0)
    (hops : ∀ src, Op.merge src ∈ ops → Sorted cmp src) :
    Sorted cmp (applyOps cmp ops l0) ∧
    (applyOps cmp ops l0).Chain' fun a b => 0 ≤ cmp b a := by
  have hs := applyOps_sorted hc ops l0 h0 hops
  refine ⟨hs, ?_⟩
  have hch : (applyOps cmp ops l0).Chain' fun a b => cmp a b ≤ 0 :=
    List.Pairwise.chain' hs
  exact hch.imp fun a b h => (hc.1 b a).mpr h

/-- Witness for C1: a concrete mixed call sequence from the empty list. -/
theorem C1_sort_invariant_witness :
    Sorted cmpInt (applyOps cmpInt
      [Op.insert true 5, Op.insert true 1, Op.merge [2, 4], Op.insert true 3,
        Op.popFront, Op.remove 0, Op.popBack] []) ∧
    (applyOps cmpInt
      [Op.insert true 5, Op.insert true 1, Op.merge [2, 4], Op.insert true 3,
        Op.popFront, Op.remove 0, Op.popBack] []).Chain'
      (fun a b => 0 ≤ cmpInt b a) :=
  C1_sort_invariant cmpInt cmpInt_consistent _ []
    (by unfold Sorted; simp)
    (by
      intro src hsrc
      simp only [List.mem_cons, List.not_mem_nil, or_false] at hsrc
      rcases hsrc with h | h | h | h | h | h | h <;> cases h
      decide)

/-- C2: inserting `e1` and then `e2` with `compare(e1, e2) = 0` under a
consistent comparator places `e2` immediately before `e1`: the result splits
as `prefix ++ e2 :: e1 :: suffix` at `e1`'s own insertion point.  Moreover
(second conjunct) Insert always scans forward from Begin past exactly the
elements with `compare(current, payload) < 0` and links the payload right
before the first position with `compare(current, payload) ≥ 0`, or End. -/
theorem C2_tie_lifo (cmp : α → α → Int) (hc : Consistent cmp) (l : List α)
    (e1 e2 : α) (h0 : cmp e1 e2 = 0) :
    SortedListInsertLoop cmp e2 (SortedListInsertLoop cmp e1 l)
      = (l.takeWhile fun x => decide (cmp x e1 < 0)) ++
          e2 :: e1 :: (l.dropWhile fun x => decide (cmp x e1 < 0)) ∧
    ∀ (d : α) (l2 : List α),
      SortedListInsertLoop cmp d l2
        = (l2.takeWhile fun x => decide (cmp x d < 0)) ++
            d :: (l2.dropWhile fun x => decide (cmp x d < 0)) := by
  refine ⟨?_, fun d l2 => SortedListInsertLoop_eq_takeWhile cmp d l2⟩
  rw [SortedListInsertLoop_eq_takeWhile cmp e1 l,
    SortedListInsertLoop_eq_takeWhile cmp e2]
  have hT : ∀ x ∈ l.takeWhile fun z => decide (cmp z e1 < 0),
      (fun z => decide (cmp z e2 < 0)) x = true := by
    intro x hx
    have hx1 : cmp x e1 < 0 := by simpa using List.mem_takeWhile_imp hx
    have hx2 : cmp x e2 < 0 := hc.lt_of_lt_of_le hx1 (by omega)
    simpa using hx2
  have hy : (fun z => decide (cmp z e2 < 0)) e1 = false := by
    simp [h0]
  obtain ⟨ht, hd⟩ := takeWhile_middle_of _ _ _ hT hy
  rw [ht, hd]

/-- Witness for C2: two equal payloads 3 around the sorted list `[1, 5]`. -/
theorem C2_tie_lifo_witness :
    cmpInt 3 3 = 0 ∧
    SortedListInsertLoop cmpInt 3 (SortedListInsertLoop cmpInt 3 [1, 5])
      = [1, 3, 3, 5] := by
  refine ⟨by decide, ?_⟩
  have h := (C2_tie_lifo cmpInt cmpInt_consistent [1, 5] 3 3 (by decide)).1
  rw [h]
  decide

/-- C3: merging sorted `source` into sorted `dest` (same consistent
comparator) empties the source, leaves `n + m` elements in `dest`, keeps
`dest` sorted, and the merged multiset is the union of the two originals. -/
theorem C3_merge_correct (cmp : α → α → Int) (hc : Consistent cmp)
    (d s : List α) (hd : Sorted cmp d) (hs : Sorted cmp s) :
    (SortedListMerge ⟨d, cmp⟩ ⟨s, cmp⟩).2.dll = [] ∧
    (SortedListMerge ⟨d, cmp⟩ ⟨s, cmp⟩).1.dll.length = d.length + s.length ∧
    Sorted cmp (SortedListMerge ⟨d, cmp⟩ ⟨s, cmp⟩).1.dll ∧
    ((SortedListMerge ⟨d, cmp⟩ ⟨s, cmp⟩).1.dll : Multiset α)
      = (d : Multiset α) + (s : Multiset α) := by
  obtain ⟨h1, h2, h3⟩ := SortedListMergeLoop_spec hc s.length [] d s
    (le_refl _) (by simpa using hd) hs (by simp)
  have hmul : ((SortedListMergeLoop cmp s.length [] d s).1 : Multiset α)
      = (d : Multiset α) + (s : Multiset α) := by
    rw [h2]
    simp [← Multiset.coe_add]
  refine ⟨?_, ?_, ?_, ?_⟩
  · simpa [SortedListMerge] using h1
  · have hcard := congrArg Multiset.card hmul
    simpa [SortedListMerge, Multiset.coe_card, Multiset.card_add] using hcard
  · simpa [SortedListMerge] using h3
  · simpa [SortedListMerge] using hmul

/-- Witness for C3: `[1, 3, 5]` merged with `[2, 3, 7]`. -/
theorem C3_merge_correct_witness :
    (SortedListMerge ⟨[1, 3, 5], cmpInt⟩ ⟨[2, 3, 7], cmpInt⟩).2.dll = [] ∧
    (SortedListMerge ⟨[1, 3, 5], cmpInt⟩ ⟨[2, 3, 7], cmpInt⟩).1.dll.length
      = ([1, 3, 5] : List Int).length + ([2, 3, 7] : List Int).length ∧
    Sorted cmpInt (SortedListMerge ⟨[1, 3, 5], cmpInt⟩
      ⟨[2, 3, 7], cmpInt⟩).1.dll ∧
    ((SortedListMerge ⟨[1, 3, 5], cmpInt⟩ ⟨[2, 3, 7], cmpInt⟩).1.dll
        : Multiset Int)
      = (([1, 3, 5] : List Int) : Multiset Int)
          + (([2, 3, 7] : List Int) : Multiset Int) :=
  C3_merge_correct cmpInt cmpInt_consistent [1, 3, 5] [2, 3, 7]
    (by decide) (by decide)

/-- The queue after enqueueing 5, 1, 3 into an empty ascending queue. -/
def c4Loaded : priority_queue Int :=
  (PriorityQueueEnqueue true (PriorityQueueEnqueue true
    (PriorityQueueEnqueue true ⟨⟨[], cmpInt⟩⟩ 5).1 1).1 3).1

/-- First, second and third dequeue steps of the C4 scenario. -/
def c4Step1 : Option Int × priority_queue Int := PriorityQueueDequeue c4Loaded

def c4Step2 : Option Int × priority_queue Int := PriorityQueueDequeue c4Step1.2

def c4Step3 : Option Int × priority_queue Int := PriorityQueueDequeue c4Step2.2

/-- C4: with the ascending numeric comparator, after enqueueing 5, 1, 3 into
an empty queue, Peek is 1, dequeues return 1 then 3 then 5, and IsEmpty is
false before and between the dequeues and true only after the third. -/
theorem C4_concrete_scenario :
    PriorityQueuePeek c4Loaded = some 1 ∧
    c4Step1.1 = some 1 ∧ c4Step2.1 = some 3 ∧ c4Step3.1 = some 5 ∧
    PriorityQueueIsEmpty c4Loaded = false ∧
    PriorityQueueIsEmpty c4Step1.2 = false ∧
    PriorityQueueIsEmpty c4Step2.2 = false ∧
    PriorityQueueIsEmpty c4Step3.2 = true := by
  exact ⟨rfl, rfl, rfl, rfl, rfl, rfl, rfl, rfl⟩

/-- C5: `Insert` yields the position of the new element on success and the
end position exactly on allocation failure; `Enqueue` reports 0 exactly when
the inserted position differs from End and non-zero exactly when it equals
End. -/
theorem C5_insert_failure_sentinel (alloc : Bool) (q : priority_queue α)
    (data : α) :
    (alloc = true →
      (SortedListInsert alloc q.sorted_list data).1.dll.get?
        (SortedListInsert alloc q.sorted_list data).2 = some data ∧
      (SortedListInsert alloc q.sorted_list data).2
        ≠ SortedListEnd (SortedListInsert alloc q.sorted_list data).1) ∧
    (alloc = false →
      (SortedListInsert alloc q.sorted_list data).2
        = SortedListEnd (SortedListInsert alloc q.sorted_list data).1 ∧
      (SortedListInsert alloc q.sorted_list data).1 = q.sorted_list) ∧
    ((PriorityQueueEnqueue alloc q data).2 = 0 ↔
      (SortedListInsert alloc q.sorted_list data).2
        ≠ SortedListEnd (SortedListInsert alloc q.sorted_list data).1) ∧
    ((PriorityQueueEnqueue alloc q data).2 ≠ 0 ↔
      (SortedListInsert alloc q.sorted_list data).2
        = SortedListEnd (SortedListInsert alloc q.sorted_list data).1) := by
  cases alloc
  · simp [SortedListInsert, SortedListEnd, PriorityQueueEnqueue,
      SortedListIsEqual]
  · have hpos := SortedListInsertPos_le q.sorted_list.cmp data q.sorted_list.dll
    have hlen :=
      SortedListInsertLoop_length q.sorted_list.cmp data q.sorted_list.dll
    have hget :=
      SortedListInsertLoop_get_pos q.sorted_list.cmp data q.sorted_list.dll
    have hne : (SortedListInsertLoop q.sorted_list.cmp data
        q.sorted_list.dll).length
        ≠ SortedListInsertPos q.sorted_list.cmp data q.sorted_list.dll := by
      omega
    have hget2 : (SortedListInsertLoop q.sorted_list.cmp data
        q.sorted_list.dll)[SortedListInsertPos q.sorted_list.cmp data
          q.sorted_list.dll]? = some data := by
      simpa using hget
    simp [SortedListInsert, SortedListEnd, PriorityQueueEnqueue,
      SortedListIsEqual, hget2, hne, Ne.symm hne]

/-- Witness for C5: inserting 3 into the one-element queue `[5]`, once with
a successful allocation and once with a failing one. -/
theorem C5_insert_failure_sentinel_witness :
    (SortedListInsert true (⟨⟨[5], cmpInt⟩⟩ : priority_queue Int).sorted_list
        3).1.dll.get?
      (SortedListInsert true (⟨⟨[5], cmpInt⟩⟩ : priority_queue Int).sorted_list
        3).2 = some 3 ∧
    (SortedListInsert false (⟨⟨[5], cmpInt⟩⟩ : priority_queue Int).sorted_list
        3).2
      = SortedListEnd (SortedListInsert false
          (⟨⟨[5], cmpInt⟩⟩ : priority_queue Int).sorted_list 3).1 ∧
    (PriorityQueueEnqueue true (⟨⟨[5], cmpInt⟩⟩ : priority_queue Int) 3).2
      = 0 ∧
    (PriorityQueueEnqueue false (⟨⟨[5], cmpInt⟩⟩ : priority_queue Int) 3).2
      ≠ 0 := by
  have h1 := C5_insert_failure_sentinel true
    (⟨⟨[5], cmpInt⟩⟩ : priority_queue Int) 3
  have h2 := C5_insert_failure_sentinel false
    (⟨⟨[5], cmpInt⟩⟩ : priority_queue Int) 3
  exact ⟨(h1.1 rfl).1, (h2.2.1 rfl).1, h1.2.2.1.mpr (h1.1 rfl).2,
    h2.2.2.2.mpr (h2.2.1 rfl).1⟩

/-- C7: dequeueing an empty priority queue returns the defined no-value and
leaves the queue as it was. -/
theorem C7_empty_dequeue (q : priority_queue α)
    (h : PriorityQueueIsEmpty q = true) :
    PriorityQueueDequeue q = (none, q) := by
  obtain ⟨⟨l, cmp⟩⟩ := q
  cases l with
  | nil => rfl
  | cons x xs => simp [PriorityQueueIsEmpty, SortedListIsEmpty] at h

/-- Witness for C7: the empty ascending queue. -/
theorem C7_empty_dequeue_witness :
    PriorityQueueIsEmpty (⟨⟨[], cmpInt⟩⟩ : priority_queue Int) = true ∧
    PriorityQueueDequeue (⟨⟨[], cmpInt⟩⟩ : priority_queue Int)
      = (none, (⟨⟨[], cmpInt⟩⟩ : priority_queue Int)) :=
  ⟨rfl, C7_empty_dequeue _ rfl⟩

/-- C6: `Erase` runs `FindIf` over the full range; when some element
matches it removes the found position and returns its payload, when none
does it returns the queue handle and leaves the queue untouched.  The last
two conjuncts are the spec's concrete scenario: erasing "equals 2" from
`{1, 2, 3}` yields payload 2 and the remaining traversal `[1, 3]`. -/
theorem C6_erase_contract (q : priority_queue α) (ismatch : α → β → Bool)
    (parameter : β) :
    ((∃ x ∈ q.sorted_list.dll, ismatch x parameter = true) →
      ∃ hlt : SortedListFindIfLoop ismatch parameter q.sorted_list.dll
          q.sorted_list.dll.length 0 < q.sorted_list.dll.length,
        (PriorityQueueErase q ismatch parameter).1
          = EraseResult.payload (q.sorted_list.dll.get
              ⟨SortedListFindIfLoop ismatch parameter q.sorted_list.dll
                q.sorted_list.dll.length 0, hlt⟩) ∧
        (PriorityQueueErase q ismatch parameter).2.sorted_list.dll
          = q.sorted_list.dll.eraseIdx
              (SortedListFindIfLoop ismatch parameter q.sorted_list.dll
                q.sorted_list.dll.length 0)) ∧
    ((∀ x ∈ q.sorted_list.dll, ismatch x parameter = false) →
      (PriorityQueueErase q ismatch parameter).1 = EraseResult.queueHandle ∧
      (PriorityQueueErase q ismatch parameter).2 = q) ∧
    (PriorityQueueErase (⟨⟨[1, 2, 3], cmpInt⟩⟩ : priority_queue Int)
      eqInt 2).1 = EraseResult.payload 2 ∧
    (PriorityQueueErase (⟨⟨[1, 2, 3], cmpInt⟩⟩ : priority_queue Int)
      eqInt 2).2.sorted_list.dll = [1, 3] := by
  obtain ⟨hb, hfirst, hfound, hiff⟩ :=
    SortedListFindIf_full ismatch parameter q.sorted_list.dll
  refine ⟨?_, ?_, by decide, by decide⟩
  · intro hex
    have hlt := hiff.mpr hex
    refine ⟨hlt, ?_, ?_⟩
    · simp only [PriorityQueueErase]
      rw [dif_pos hlt]
    · simp only [PriorityQueueErase]
      rw [dif_pos hlt]
      rfl
  · intro hall
    have hnlt : ¬ SortedListFindIfLoop ismatch parameter q.sorted_list.dll
        q.sorted_list.dll.length 0 < q.sorted_list.dll.length := by
      intro hlt
      obtain ⟨x, hx, hm⟩ := hiff.mp hlt
      rw [hall x hx] at hm
      cases hm
    constructor
    · simp only [PriorityQueueErase]
      rw [dif_neg hnlt]
    · simp only [PriorityQueueErase]
      rw [dif_neg hnlt]

/-- Witness for C6: erasing "equals 2" from the two-element queue `[1, 3]`
hits the not-found branch. -/
theorem C6_erase_contract_witness :
    (PriorityQueueErase (⟨⟨[1, 3], cmpInt⟩⟩ : priority_queue Int) eqInt 2).1
      = EraseResult.queueHandle ∧
    (PriorityQueueErase (⟨⟨[1, 3], cmpInt⟩⟩ : priority_queue Int) eqInt 2).2
      = (⟨⟨[1, 3], cmpInt⟩⟩ : priority_queue Int) :=
  (C6_erase_contract (⟨⟨[1, 3], cmpInt⟩⟩ : priority_queue Int) eqInt 2).2.1
    (by decide)

/-- C8: on a valid range `[from, to)` of a list sorted by the comparator,
`Find` walks forward exactly while `compare(current, key) > 0` and returns
the first position whose payload satisfies `compare(current, key) ≤ 0`, or
`to` when the whole range scans strictly greater. -/
theorem C8_find_semantics (cmp : α → α → Int) (l : List α) (key : α)
    (fromPos toPos : Nat) (h1 : fromPos ≤ toPos) (h2 : toPos ≤ l.length)
    (_h3 : Sorted cmp ((l.drop fromPos).take (toPos - fromPos))) :
    fromPos ≤ SortedListFindLoop cmp l key toPos fromPos ∧
    SortedListFindLoop cmp l key toPos fromPos ≤ toPos ∧
    (∀ j, fromPos ≤ j → j < SortedListFindLoop cmp l key toPos fromPos →
      ∀ x, l.get? j = some x → 0 < cmp x key) ∧
    (SortedListFindLoop cmp l key toPos fromPos < toPos →
      ∃ x, l.get? (SortedListFindLoop cmp l key toPos fromPos) = some x ∧
        cmp x key ≤ 0) :=
  SortedListFindLoop_spec cmp l key toPos (toPos - fromPos) fromPos
    (le_refl _) h2 h1

/-- Witness for C8: searching `[1, 3, 5]` for key 0 scans the whole range
(every element compares greater than 0) and lands on `to`. -/
theorem C8_find_semantics_witness :
    (0 ≤ SortedListFindLoop cmpInt [1, 3, 5] 0 3 0 ∧
      SortedListFindLoop cmpInt [1, 3, 5] 0 3 0 ≤ 3) ∧
    SortedListFindLoop cmpInt [1, 3, 5] 0 3 0 = 3 :=
  ⟨⟨(C8_find_semantics cmpInt [1, 3, 5] 0 0 3 (by omega) (by decide)
        (by decide)).1,
    (C8_find_semantics cmpInt [1, 3, 5] 0 0 3 (by omega) (by decide)
        (by decide)).2.1⟩,
    by decide⟩

/-- C9 counterexample: a cross-container range handed to `ForEach` in a
debug build does not trip an assertion; the call completes and returns the
ordinary status value -1. -/
theorem C9_cross_container_counterexample :
    SortedListForEachDebug ([1, 2] : List Int) ⟨0, 0⟩ ⟨2, 1⟩ (fun _ => 0)
      = DebugResult.ok (-1) ∧
    DebugResult.ok (-1) ≠ (DebugResult.assertFailed : DebugResult Int) := by
  exact ⟨rfl, by decide⟩

/-- C9 (amended): in a debug build a cross-container range makes `Find` and
`FindIf` fail their assertion, while `ForEach` instead detects the mismatch
and returns -1 without asserting. -/
theorem C9_cross_container_debug (list : sorted_list α) (l : List α)
    (f t : sorted_list_iter) (key : α) (ismatch : α → β → Bool)
    (parameter : β) (action : α → Int) (h : f.list ≠ t.list) :
    SortedListFindDebug list f t key = DebugResult.assertFailed ∧
    SortedListFindIfDebug l f t ismatch parameter
      = DebugResult.assertFailed ∧
    SortedListForEachDebug l f t action = DebugResult.ok (-1) := by
  refine ⟨?_, ?_, ?_⟩ <;>
    simp [SortedListFindDebug, SortedListFindIfDebug,
      SortedListForEachDebug, h]

/-- Witness for C9: iterators tagged with owning lists 0 and 1. -/
theorem C9_cross_container_debug_witness :
    SortedListFindDebug (⟨[1], cmpInt⟩ : sorted_list Int) ⟨0, 0⟩ ⟨1, 1⟩ 1
      = DebugResult.assertFailed ∧
    SortedListFindIfDebug ([1] : List Int) ⟨0, 0⟩ ⟨1, 1⟩ eqInt 1
      = DebugResult.assertFailed ∧
    SortedListForEachDebug ([1] : List Int) ⟨0, 0⟩ ⟨1, 1⟩ (fun _ => 0)
      = DebugResult.ok (-1) :=
  C9_cross_container_debug (⟨[1], cmpInt⟩ : sorted_list Int) ([1] : List Int)
    ⟨0, 0⟩ ⟨1, 1⟩ 1 eqInt 1 (fun _ => 0) (by decide)

/-- C10: when at least two elements match, `Erase` removes exactly the
first matching position in traversal order (everything before it fails the
predicate) and every other element survives in its previous relative order:
the remaining contents are literally `take i ++ drop (i + 1)`, one element
shorter, with the match count reduced by exactly one. -/
theorem C10_erase_first_match_only (q : priority_queue α)
    (ismatch : α → β → Bool) (parameter : β)
    (h : 2 ≤ q.sorted_list.dll.countP fun x => ismatch x parameter) :
    ∃ hlt : SortedListFindIfLoop ismatch parameter q.sorted_list.dll
        q.sorted_list.dll.length 0 < q.sorted_list.dll.length,
      ismatch (q.sorted_list.dll.get
        ⟨SortedListFindIfLoop ismatch parameter q.sorted_list.dll
          q.sorted_list.dll.length 0, hlt⟩) parameter = true ∧
      (∀ j x, j < SortedListFindIfLoop ismatch parameter q.sorted_list.dll
          q.sorted_list.dll.length 0 →
        q.sorted_list.dll.get? j = some x → ismatch x parameter = false) ∧
      (PriorityQueueErase q ismatch parameter).2.sorted_list.dll
        = q.sorted_list.dll.take (SortedListFindIfLoop ismatch parameter
            q.sorted_list.dll q.sorted_list.dll.length 0) ++
          q.sorted_list.dll.drop (SortedListFindIfLoop ismatch parameter
            q.sorted_list.dll q.sorted_list.dll.length 0 + 1) ∧
      (PriorityQueueErase q ismatch parameter).2.sorted_list.dll.length
        = q.sorted_list.dll.length - 1 ∧
      (PriorityQueueErase q ismatch parameter).2.sorted_list.dll.countP
          (fun x => ismatch x parameter)
        = (q.sorted_list.dll.countP fun x => ismatch x parameter) - 1 := by
  obtain ⟨hb, hfirst, hfound, hiff⟩ :=
    SortedListFindIf_full ismatch parameter q.sorted_list.dll
  have hex : ∃ x ∈ q.sorted_list.dll, ismatch x parameter = true := by
    have hpos : 0 < q.sorted_list.dll.countP fun x => ismatch x parameter := by
      omega
    simpa using List.countP_pos_iff.mp hpos
  have hlt := hiff.mpr hex
  set i := SortedListFindIfLoop ismatch parameter q.sorted_list.dll
    q.sorted_list.dll.length 0 with hi
  have hdll : (PriorityQueueErase q ismatch parameter).2.sorted_list.dll
      = q.sorted_list.dll.eraseIdx i := by
    simp only [PriorityQueueErase]
    rw [dif_pos hlt]
    rfl
  have hmatch : ismatch (q.sorted_list.dll.get ⟨i, hlt⟩) parameter = true := by
    obtain ⟨x, hx, hm⟩ := hfound hlt
    rw [List.get?_eq_get hlt] at hx
    cases hx
    exact hm
  have htd : q.sorted_list.dll.eraseIdx i
      = q.sorted_list.dll.take i ++ q.sorted_list.dll.drop (i + 1) :=
    List.eraseIdx_eq_take_drop_succ q.sorted_list.dll i
  have hcount : (q.sorted_list.dll.eraseIdx i).countP
      (fun x => ismatch x parameter)
      = (q.sorted_list.dll.countP fun x => ismatch x parameter) - 1 := by
    have hsplit : q.sorted_list.dll.take i ++ q.sorted_list.dll.drop i
        = q.sorted_list.dll := List.take_append_drop i q.sorted_list.dll
    have hdropc : q.sorted_list.dll.drop i
        = q.sorted_list.dll.get ⟨i, hlt⟩ :: q.sorted_list.dll.drop (i + 1) := by
      simp [List.get_eq_getElem]
    have hc0 : (q.sorted_list.dll.countP fun x => ismatch x parameter)
        = (q.sorted_list.dll.take i).countP (fun x => ismatch x parameter) +
          ((q.sorted_list.dll.drop (i + 1)).countP
            (fun x => ismatch x parameter) + 1) := by
      conv_lhs => rw [← hsplit]
      rw [List.countP_append, hdropc, List.countP_cons, hmatch]
      simp
    rw [htd, List.countP_append]
    omega
  refine ⟨hlt, hmatch, ?_, ?_, ?_, ?_⟩
  · intro j x hj hx
    exact hfirst j x hj hx
  · rw [hdll, htd]
  · rw [hdll]
    exact List.length_eraseIdx_of_lt hlt
  · rw [hdll]
    exact hcount

/-- Witness for C10: erasing "equals 3" from `[1, 3, 3]`, which holds two
matches, removes only the first 3. -/
theorem C10_erase_first_match_only_witness :
    ∃ hlt : SortedListFindIfLoop eqInt 3 ([1, 3, 3] : List Int) 3 0 < 3,
      eqInt (([1, 3, 3] : List Int).get
        ⟨SortedListFindIfLoop eqInt 3 ([1, 3, 3] : List Int) 3 0, hlt⟩) 3
        = true ∧
      (∀ j x, j < SortedListFindIfLoop eqInt 3 ([1, 3, 3] : List Int) 3 0 →
        ([1, 3, 3] : List Int).get? j = some x → eqInt x 3 = false) ∧
      (PriorityQueueErase (⟨⟨[1, 3, 3], cmpInt⟩⟩ : priority_queue Int)
          eqInt 3).2.sorted_list.dll
        = ([1, 3, 3] : List Int).take
            (SortedListFindIfLoop eqInt 3 ([1, 3, 3] : List Int) 3 0) ++
          ([1, 3, 3] : List Int).drop
            (SortedListFindIfLoop eqInt 3 ([1, 3, 3] : List Int) 3 0 + 1) ∧
      (PriorityQueueErase (⟨⟨[1, 3, 3], cmpInt⟩⟩ : priority_queue Int)
          eqInt 3).2.sorted_list.dll.length = 3 - 1 ∧
      (PriorityQueueErase (⟨⟨[1, 3, 3], cmpInt⟩⟩ : priority_queue Int)
          eqInt 3).2.sorted_list.dll.countP (fun x => eqInt x 3)
        = ([1, 3, 3] : List Int).countP (fun x => eqInt x 3) - 1 :=
  C10_erase_first_match_only (⟨⟨[1, 3, 3], cmpInt⟩⟩ : priority_queue Int)
    eqInt 3 (by decide)

end PriorityQueueVerif
